import Mathlib

set_option maxHeartbeats 1000000

/-!
Shallow embedding of the core logic of `src/server.js` (KTP NIK Extractor API).

Text is modelled as `List Char`.  JavaScript regular expressions are embedded
as specialised backtracking matchers that follow the exact greedy, leftmost
semantics of the concrete patterns used by the source:

* `extractNIK` (server.js lines 78-127): normalisation, the labelled `NIK`
  match, the global digit-run scan, and the token scan.
* `extractKTPInfo` (server.js lines 132-166): the `Nama` field extraction.
* `compressImage` (server.js lines 42-71): the bounded re-encode loop, with
  the external `sharp` resize/encode call abstracted as a `step` parameter
  (returning `none` when the call throws).
-/

namespace OcrSpaceKtp

/-- JS whitespace class `\s`, restricted to its ASCII members (the texts
handled by `server.js` and by this development are ASCII). -/
def isJsSpace (c : Char) : Bool :=
  c = ' ' || c = '\t' || c = '\n' || c = '\r' || c = '\x0b' || c = '\x0c'

/-- Character class `[\n\r]` of the first normalisation `replace`. -/
def isNewlineChar (c : Char) : Bool := c = '\n' || c = '\r'

/-- Character class `[\s\-]` (separators inside digit runs). -/
def isSepChar (c : Char) : Bool := isJsSpace c || c = '-'

/-- Characters consumed by `\s*[:.\s\-]*\s*` right after the literal `NIK`.
Since none of them is a digit and the next regex atom is `\d`, the greedy
stars behave as one maximal munch over this combined class. -/
def isLabelSep (c : Char) : Bool := isJsSpace c || c = ':' || c = '.' || c = '-'

/-- One pass of `text.replace(/X+/g, ' ')`: each maximal run of characters
satisfying `p` is replaced by a single space.  The boolean argument records
whether we are currently inside such a run. -/
def collapseGo (p : Char → Bool) : Bool → List Char → List Char
  | _, [] => []
  | inRun, c :: l =>
    if p c then
      if inRun then collapseGo p true l else ' ' :: collapseGo p true l
    else c :: collapseGo p false l

/-- `text.replace(/X+/g, ' ')`. -/
def collapseRuns (p : Char → Bool) (l : List Char) : List Char :=
  collapseGo p false l

/-- JS `String.prototype.trim` (whitespace stripped from both ends). -/
def jsTrim (l : List Char) : List Char :=
  ((l.dropWhile isJsSpace).reverse.dropWhile isJsSpace).reverse

/-- server.js line 82:
`text.replace(/[\n\r]+/g, ' ').replace(/\s+/g, ' ').trim()`. -/
def normalizeText (l : List Char) : List Char :=
  jsTrim (collapseRuns isJsSpace (collapseRuns isNewlineChar l))

/-- Take exactly `n` leading digits (`\d{n}` at the current position). -/
def takeDigits : Nat → List Char → Option (List Char × List Char)
  | 0, l => some ([], l)
  | _ + 1, [] => none
  | n + 1, c :: l =>
    if c.isDigit then
      match takeDigits n l with
      | some (ds, rest) => some (c :: ds, rest)
      | none => none
    else none

/-- One digit group `\d{1,3}` of exactly `n` digits followed, when `cont` is
present (i.e. further groups remain), by the greedy optional separator
`[\s\-]?` and the remaining groups.  `cont` is the matcher for the remaining
groups; `none` means this is the last group of the pattern. -/
def groupStep (cont : Option (List Char → Option (List Char × List Char)))
    (n : Nat) (l : List Char) : Option (List Char × List Char) :=
  match takeDigits n l with
  | none => none
  | some (ds, rest) =>
    match cont with
    | none => some (ds, rest)
    | some recur =>
      match rest with
      | [] => none
      | s :: rest2 =>
        if isSepChar s then
          match recur rest2 with
          | some (cap, r) => some (ds ++ s :: cap, r)
          | none =>
            match recur rest with
            | some (cap, r) => some (ds ++ cap, r)
            | none => none
        else
          match recur rest with
          | some (cap, r) => some (ds ++ cap, r)
          | none => none

/-- Backtracking matcher for `k` digit groups
`\d{1,3}([\s\-]?\d{1,3}){k-1}` with JS greedy preference: each `\d{1,3}`
tries 3, then 2, then 1 digits, and each `[\s\-]?` tries to consume a
separator before trying not to.  Returns the captured characters (digits
and consumed separators) and the remaining input. -/
def matchGroups : Nat → List Char → Option (List Char × List Char)
  | 0, l => some ([], l)
  | k + 1, l =>
    let cont : Option (List Char → Option (List Char × List Char)) :=
      match k with
      | 0 => none
      | _ + 1 => some (matchGroups k)
    match groupStep cont 3 l with
    | some r => some r
    | none =>
      match groupStep cont 2 l with
      | some r => some r
      | none => groupStep cont 1 l

/-- Case-insensitive test for the literal `NIK` at the head of the list. -/
def nikCiAt : List Char → Bool
  | c1 :: c2 :: c3 :: _ =>
    c1.toLower = 'n' && c2.toLower = 'i' && c3.toLower = 'k'
  | _ => false

/-- Attempt of the full labelled pattern (server.js line 86)
`NIK\s*[:.\s\-]*\s*(\d{1,3}[\s\-]?...\d{1,3})` (8 digit groups),
case-insensitively, anchored at the head of `l`; returns capture group 1. -/
def matchNikLabelAt (l : List Char) : Option (List Char) :=
  match l with
  | c1 :: c2 :: c3 :: rest =>
    if c1.toLower = 'n' && c2.toLower = 'i' && c3.toLower = 'k' then
      match matchGroups 8 (rest.dropWhile isLabelSep) with
      | some (cap, _) => some cap
      | none => none
    else none
  | _ => none

/-- `cleanText.match(regex)` without the global flag: the leftmost position
where the full labelled pattern matches wins, and its capture is returned. -/
def findNikLabel : List Char → Option (List Char)
  | [] => none
  | c :: l =>
    match matchNikLabelAt (c :: l) with
    | some cap => some cap
    | none => findNikLabel l

/-- `rawNik.replace(/[\s\-]/g, '')` (server.js line 89). -/
def stripSeps (l : List Char) : List Char := l.filter (fun c => !isSepChar c)

/-- `nik.length === 16 && /^\d{16}$/.test(nik)` (server.js lines 92, 105). -/
def is16Digits (l : List Char) : Bool := l.length = 16 && l.all Char.isDigit

/-- Method 1 (server.js lines 84-95): labelled `NIK` match.  If the leftmost
match of the labelled pattern strips to exactly 16 digits it is returned;
otherwise (no match, or a match of the wrong stripped length) the caller
falls through to Method 2. -/
def method1 (cleanText : List Char) : Option (List Char) :=
  match findNikLabel cleanText with
  | some rawNik =>
    let nik := stripSeps rawNik
    if is16Digits nik then some nik else none
  | none => none

/-- Greedy parse of the tail of a digit region after its first digit:
repetitions of (separator run, digit) as long as a digit follows the
separator run.  Returns (consumed characters up to the last digit, number
of digits consumed, unconsumed remainder starting after the last digit). -/
def regionGo : List Char → List Char × Nat × List Char
  | [] => ([], 0, [])
  | c :: l =>
    if c.isDigit then
      match regionGo l with
      | (cons, n, rest) => (c :: cons, n + 1, rest)
    else if isSepChar c then
      match regionGo l with
      | (cons, n, rest) => if n = 0 then ([], 0, c :: l) else (c :: cons, n, rest)
    else ([], 0, c :: l)

/-- Attempt of `(\d[\s\-]*){15,}\d` anchored at the head of `l`.  By the
greedy backtracking semantics this matches exactly when `l` starts a digit
region (digits interleaved with space/dash runs) containing at least 16
digits, and the match extends up to the last digit of the region. -/
def match2At (l : List Char) : Option (List Char) :=
  match l with
  | [] => none
  | c :: l2 =>
    if c.isDigit then
      match regionGo l2 with
      | (cons, n, _) => if 16 ≤ n + 1 then some (c :: cons) else none
    else none

/-- All matches of `cleanText.match(/(\d[\s\-]*){15,}\d/g)`: scan left to
right, emit each leftmost match and resume after it.  The fuel argument
(always instantiated with the length of the text) only bounds the
recursion; every step consumes at least one character. -/
def allMatchesF : Nat → List Char → List (List Char)
  | 0, _ => []
  | fuel + 1, l =>
    match l with
    | [] => []
    | c :: l2 =>
      match match2At (c :: l2) with
      | some m => m :: allMatchesF fuel ((c :: l2).drop m.length)
      | none => allMatchesF fuel l2

def allMatches (l : List Char) : List (List Char) := allMatchesF l.length l

/-- The `for (const match of allDigitsPattern)` loop of Method 2
(server.js lines 101-114): strip non-digits; return on exactly 16 digits;
on more than 16 digits return the first 16 when they pass `/^\d{16}$/`. -/
def method2Scan : List (List Char) → Option (List Char)
  | [] => none
  | m :: ms =>
    let nik := m.filter Char.isDigit
    if is16Digits nik then some nik
    else if 16 < nik.length then
      let first16 := nik.take 16
      if is16Digits first16 then some first16 else method2Scan ms
    else method2Scan ms

/-- Method 2 (server.js lines 97-115): global digit-run scan. -/
def method2 (cleanText : List Char) : Option (List Char) :=
  method2Scan (allMatches cleanText)

/-- `cleanText.split(/[\s\-]+/)` with JS semantics (leading separators give
a leading empty token, trailing separators a trailing empty token).  The
boolean records whether the previous character was a separator, `cur` is
the current token reversed. -/
def splitGo : Bool → List Char → List Char → List (List Char)
  | _, cur, [] => [cur.reverse]
  | inSep, cur, c :: l =>
    if isSepChar c then
      if inSep then splitGo true cur l
      else cur.reverse :: splitGo true [] l
    else splitGo false (c :: cur) l

def splitSeps (l : List Char) : List (List Char) := splitGo false [] l

/-- Method 3 loop (server.js lines 118-124): for each token, strip
non-digit characters (`word.replace(/\D/g, '')`) and return the first
token whose stripped form is exactly 16 digits. -/
def method3Scan : List (List Char) → Option (List Char)
  | [] => none
  | w :: ws =>
    let nik := w.filter Char.isDigit
    if is16Digits nik then some nik else method3Scan ws

/-- Method 3 (server.js lines 117-124): token scan. -/
def method3 (cleanText : List Char) : Option (List Char) :=
  method3Scan (splitSeps cleanText)

/-- `extractNIK` (server.js lines 78-127). -/
def extractNIK (text : List Char) : Option (List Char) :=
  if text.isEmpty then none
  else
    let cleanText := normalizeText text
    match method1 cleanText with
    | some nik => some nik
    | none =>
      match method2 cleanText with
      | some nik => some nik
      | none => method3 cleanText

/-- Try `f n`, then `f (n-1)`, ..., then `f 0`, returning the first success:
the backtracking order of a greedy star that initially consumed `n`
characters. -/
def descendOpt (f : Nat → Option (List Char)) : Nat → Option (List Char)
  | 0 => f 0
  | n + 1 =>
    match f (n + 1) with
    | some r => some r
    | none => descendOpt f n

/-- `[^\n]+` anchored at the head of `l`: greedily captures up to (not
including) the first newline; fails on an empty remainder or a leading
newline. -/
def captureLine (l : List Char) : Option (List Char) :=
  match l with
  | [] => none
  | c :: _ => if c = '\n' then none else some (l.takeWhile (fun c => c ≠ '\n'))

/-- Backtracking match of `\s*[:]*\s*([^\n]+)` anchored at the head of `l`
(the part of the `Nama` pattern after the literal label, server.js
line 138).  Each greedy star starts at its maximal munch and retracts on
failure, innermost first. -/
def matchNamaTailAt (l : List Char) : Option (List Char) :=
  descendOpt
    (fun a =>
      let ra := l.drop a
      descendOpt
        (fun b =>
          let rb := ra.drop b
          descendOpt (fun c => captureLine (rb.drop c))
            (rb.takeWhile isJsSpace).length)
        (ra.takeWhile (fun ch => ch = ':')).length)
    (l.takeWhile isJsSpace).length

/-- The full pattern `Nama\s*[:]*\s*([^\n]+)` (case-insensitive on the
literal) anchored at the head of `l`; returns capture group 1. -/
def matchNamaAt (l : List Char) : Option (List Char) :=
  match l with
  | c1 :: c2 :: c3 :: c4 :: rest =>
    if c1.toLower = 'n' && c2.toLower = 'a' && c3.toLower = 'm' &&
        c4.toLower = 'a' then
      matchNamaTailAt rest
    else none
  | _ => none

/-- `text.match(/Nama\s*[:]*\s*([^\n]+)/i)`: leftmost match wins. -/
def findNama : List Char → Option (List Char)
  | [] => none
  | c :: l =>
    match matchNamaAt (c :: l) with
    | some cap => some cap
    | none => findNama l

/-- Case-insensitive literal prefix test (`pat` given in lower case). -/
def ciAt : List Char → List Char → Bool
  | [], _ => true
  | _ :: _, [] => false
  | p :: ps, c :: cs => p = c.toLower && ciAt ps cs

/-- Does one of the alternatives `\n|Tempat|Jenis|Gol\.|Alamat` (of the
case-insensitive split regex, server.js line 142) match at the head? -/
def namaLabelAt (l : List Char) : Bool :=
  (match l with
   | '\n' :: _ => true
   | _ => false) ||
  ciAt "tempat".data l || ciAt "jenis".data l ||
  ciAt "gol.".data l || ciAt "alamat".data l

/-- `nama.split(/\n|Tempat|Jenis|Gol\.|Alamat/i)[0]`: the prefix before the
first position where an alternative matches (the whole string if none
does). -/
def splitHead : List Char → List Char
  | [] => []
  | c :: l => if namaLabelAt (c :: l) then [] else c :: splitHead l

/-- The `Nama` extraction of `extractKTPInfo` (server.js lines 132-143):
`info.nama`, or `none` when text is empty or the pattern does not match. -/
def extractNama (text : List Char) : Option (List Char) :=
  if text.isEmpty then none
  else
    match findNama text with
    | some cap => some (jsTrim (splitHead (jsTrim cap)))
    | none => none

/-! ### Image compression (server.js lines 42-71)

The buffer type and the `sharp(...).resize(...).jpeg(...).toBuffer()` call
are abstracted: `β` is the buffer type, `size` its byte length, and
`step buf quality maxDimension` the re-encode, returning `none` when the
library throws.  `compressRun` mirrors the `while` loop and additionally
records, in its first component, the state `(buffer, quality, maxDimension)`
at the start of each executed iteration; its second component is `none`
exactly when a re-encode step threw. -/

def MAX_FILE_SIZE : Nat := 1024 * 1024

/-- The compression loop (server.js lines 50-64), with fuel
`r = maxAttempts - attempts`. -/
def compressRun {β : Type} (step : β → Int → Nat → Option β) (size : β → Nat) :
    β → Int → Nat → Nat → List (β × Int × Nat) × Option β
  | buf, _, _, 0 => ([], some buf)
  | buf, q, dim, r + 1 =>
    if MAX_FILE_SIZE < size buf then
      match step buf q dim with
      | some buf2 =>
        let rec2 := compressRun step size buf2 (q - 10) (dim * 9 / 10) r
        ((buf, q, dim) :: rec2.1, rec2.2)
      | none => ([(buf, q, dim)], none)
    else ([], some buf)

/-- `compressImage` (server.js lines 42-71): run the loop from
`quality = 80`, `maxDimension = 2000`, `maxAttempts = 5`; the `catch`
branch returns the original buffer when a step throws. -/
def compressImage {β : Type} (step : β → Int → Nat → Option β)
    (size : β → Nat) (imageBuffer : β) : β :=
  match (compressRun step size imageBuffer 80 2000 5).2 with
  | some b => b
  | none => imageBuffer

/-- The value of `maxDimension` after `i` executed iterations (the update
`maxDimension = Math.floor(maxDimension * 0.9)`; all values reachable from
2000 in at most five iterations are exactly representable, so the integer
`* 9 / 10` agrees with the JS float computation). -/
def dimIter : Nat → Nat → Nat
  | 0, d => d
  | i + 1, d => dimIter i (d * 9 / 10)

/-! ### Predicates used to state the claims -/

/-- Number of digit characters in the longest prefix of `l` made of digits
and space/dash separators (an upper bound for the digits of the digit
region starting at the head of `l`). -/
def looseDigits (l : List Char) : Nat :=
  ((l.takeWhile (fun c => c.isDigit || isSepChar c)).filter Char.isDigit).length

/-- No position of `l` starts a digit sequence, interspersed with runs of
spaces/dashes, containing 15 or more digit characters. -/
def noLongRun (l : List Char) : Bool :=
  l.tails.all (fun t => looseDigits t ≤ 14)

/-- No space/dash-delimited token of `l` contains exactly 16 digit
characters. -/
def noSixteenToken (l : List Char) : Bool :=
  (splitSeps l).all (fun w => (w.filter Char.isDigit).length != 16)

/-- Digits of a run continuing after a digit, where successive digits may be
separated by at most a single space or dash (the separator notion used by
claim C3's hypothesis). -/
def srdTail : List Char → Nat
  | [] => 0
  | c :: l =>
    if c.isDigit then 1 + srdTail l
    else if isSepChar c then
      match l with
      | [] => 0
      | d :: l2 => if d.isDigit then 1 + srdTail l2 else 0
    else 0

/-- Digits of the run starting at the head of `l`, digits interspersed only
with single spaces/dashes. -/
def runDigitsSingle : List Char → Nat
  | [] => 0
  | c :: l => if c.isDigit then 1 + srdTail l else 0

/-- The input contains no run of 15 or more digit characters in which the
digits are interspersed only with single spaces/dashes (the hypothesis of
claim C3, read literally). -/
def noLongRunSingle (l : List Char) : Bool :=
  l.tails.all (fun t => runDigitsSingle t ≤ 14)

/-- Case-insensitive occurrence of the literal `nik` anywhere in `l`. -/
def hasNikCi (l : List Char) : Bool := l.tails.any nikCiAt

/-! ### Small facts about the character classes -/

theorem sep_not_digit {c : Char} (h : isSepChar c = true) : c.isDigit = false := by
  simp only [isSepChar, isJsSpace, Bool.or_eq_true, decide_eq_true_eq] at h
  rcases h with (((((h | h) | h) | h) | h) | h) | h <;> subst h <;> decide

theorem space_not_digit {c : Char} (h : isJsSpace c = true) : c.isDigit = false := by
  apply sep_not_digit
  simp only [isSepChar, h, Bool.true_or]

theorem digit_not_space {c : Char} (h : c.isDigit = true) : isJsSpace c = false := by
  cases hs : isJsSpace c with
  | false => rfl
  | true => rw [space_not_digit hs] at h; exact absurd h (by simp)

theorem digit_not_sep {c : Char} (h : c.isDigit = true) : isSepChar c = false := by
  cases hs : isSepChar c with
  | false => rfl
  | true => rw [sep_not_digit hs] at h; exact absurd h (by simp)

/-! ### Claim C9: name extraction -/

/-- C9.  For the input text `"Nama : John Doe\nTempat Lahir: Jakarta"`,
the `Nama` extraction of `extractKTPInfo` returns `"John Doe"`: the
capture of the rest of the line is cut before the next field label and
trimmed. -/
theorem claim_C9_nama_truncation :
    extractNama "Nama : John Doe\nTempat Lahir: Jakarta".data =
      some "John Doe".data := by rfl

/-! ### Claim C10: no word boundary before `NIK` -/

/-- C10.  The labelled strategy requires no word boundary before `NIK`:
in a text where the letters `nik` occur only as the tail of the word
`elektronik` followed by a separated 16-digit group, and a different
16-digit number appears earlier, `extractNIK` returns the group following
the embedded `nik`, not the earlier number. -/
theorem claim_C10_embedded_nik :
    extractNIK "1111222233334444 elektronik 5555666677778888".data =
      some "5555666677778888".data ∧
    "5555666677778888".data ≠ "1111222233334444".data := by
  exact ⟨by rfl, by decide⟩

/-! ### Claim C4: labelled match with spaced digit groups -/

/-- C4, counterexample.  The claim quantifies over every text containing
the substring `"NIK: 3201 0145 0390 0021"`; it fails when an earlier
occurrence of the labelled pattern matches first with a capture of the
wrong length.  Here the leftmost labelled match captures the 17-digit
group, is rejected, and the global scan then returns the first 16 digits
of that earlier run instead of the labelled value. -/
theorem claim_C4_counterexample :
    (∃ u v, "NIK 12345678901234567 NIK: 3201 0145 0390 0021".data =
        u ++ "NIK: 3201 0145 0390 0021".data ++ v) ∧
    extractNIK "NIK 12345678901234567 NIK: 3201 0145 0390 0021".data =
      some "1234567890123456".data ∧
    "1234567890123456".data ≠ "3201014503900021".data := by
  refine ⟨⟨"NIK 12345678901234567 ".data, [], by decide⟩, by rfl, by decide⟩

/-- C4, amended.  For every input text on which the leftmost match of the
labelled pattern captures the group `"3201 0145 0390 0021"` — in
particular for the spec's scenario text — `extractNIK` strips the spaces
and returns `"3201014503900021"`. -/
theorem claim_C4_labeled_spaced_groups (text : List Char)
    (h : findNikLabel (normalizeText text) = some "3201 0145 0390 0021".data) :
    extractNIK text = some "3201014503900021".data := by
  have hne : text.isEmpty = false := by
    cases htext : text.isEmpty with
    | false => rfl
    | true =>
      rw [List.isEmpty_iff.mp htext] at h
      exact absurd h (by decide)
  unfold extractNIK
  rw [hne]
  simp only [Bool.false_eq_true, if_false, method1, h]
  rfl

/-- C4, amended, instance: the scenario text itself. -/
theorem claim_C4_witness :
    findNikLabel (normalizeText "Provinsi Jawa Barat NIK: 3201 0145 0390 0021 Nama".data) =
      some "3201 0145 0390 0021".data ∧
    extractNIK "Provinsi Jawa Barat NIK: 3201 0145 0390 0021 Nama".data =
      some "3201014503900021".data := by
  exact ⟨by rfl, claim_C4_labeled_spaced_groups _ (by rfl)⟩

/-! ### Claim C2: the labelled strategy takes precedence -/

/-- C2, counterexample.  A text containing both a labelled 16-digit NIK
(`"NIK: 1111222233334444"`) and a different, unrelated 16-digit number
elsewhere (`"9999888877776666"`) on which `extractNIK` does not return
the labelled number: the leftmost match of the labelled pattern anchors
at the earlier `NIK`, greedily captures the 17-digit run, fails the
16-digit check — and since the non-global `match` never retries at the
second label, the global scan then returns the first run truncated to 16
digits instead of the labelled value. -/
theorem claim_C2_counterexample :
    (∃ u v,
      "NIK 12345678901234567 NIK: 1111222233334444 dan 9999888877776666".data
        = u ++ "NIK: 1111222233334444".data ++ v) ∧
    (∃ u v,
      "NIK 12345678901234567 NIK: 1111222233334444 dan 9999888877776666".data
        = u ++ "9999888877776666".data ++ v) ∧
    extractNIK
      "NIK 12345678901234567 NIK: 1111222233334444 dan 9999888877776666".data
      = some "1234567890123456".data ∧
    "1234567890123456".data ≠ "1111222233334444".data := by
  refine ⟨⟨"NIK 12345678901234567 ".data, " dan 9999888877776666".data,
      by decide⟩,
    ⟨"NIK 12345678901234567 NIK: 1111222233334444 dan ".data, [], by decide⟩,
    by rfl, by decide⟩

/-- C2, amended.  Whenever the labelled strategy (Method 1) actually
yields a valid 16-digit result on the normalised text — the leftmost
match of the labelled pattern strips to exactly 16 digits — `extractNIK`
returns exactly that result and the lower-priority strategies are never
consulted.  Mere presence of a labelled 16-digit number and an unrelated
16-digit number elsewhere does not suffice: an earlier occurrence of the
labelled pattern can match first with an over-length capture and divert
the result to the global scan. -/
theorem claim_C2_label_priority (text nik : List Char)
    (h : method1 (normalizeText text) = some nik) :
    extractNIK text = some nik := by
  have hne : text.isEmpty = false := by
    cases htext : text.isEmpty with
    | false => rfl
    | true =>
      rw [List.isEmpty_iff.mp htext,
        show method1 (normalizeText []) = none from rfl] at h
      exact Option.noConfusion h
  unfold extractNIK
  rw [hne]
  simp only [Bool.false_eq_true, if_false, h]

/-- C2, amended, instance: a text on which the labelled strategy
succeeds, with a different unrelated 16-digit number later on, returns
the labelled number. -/
theorem claim_C2_witness :
    method1 (normalizeText "NIK: 1234567890123456 dan 9999888877776666".data) =
      some "1234567890123456".data ∧
    extractNIK "NIK: 1234567890123456 dan 9999888877776666".data =
      some "1234567890123456".data := by
  exact ⟨by rfl, claim_C2_label_priority _ _ (by rfl)⟩

/-! ### Claim C8: compression failure returns the original buffer -/

/-- C8.  `compressImage` is a total function (it never raises), and when
any re-encode step fails (the loop result is `none`, the JS `catch`
branch) it returns the original input buffer unmodified. -/
theorem claim_C8_error_returns_original {β : Type}
    (step : β → Int → Nat → Option β) (size : β → Nat) (buf : β)
    (h : (compressRun step size buf 80 2000 5).2 = none) :
    compressImage step size buf = buf := by
  unfold compressImage
  rw [h]

/-- C8, instance: a step function that always throws, on an over-limit
buffer, leads to the original buffer being returned. -/
theorem claim_C8_witness :
    (compressRun (fun (_ : Nat) (_ : Int) (_ : Nat) => (none : Option Nat))
        (fun b => b) 2097152 80 2000 5).2 = none ∧
    compressImage (fun (_ : Nat) (_ : Int) (_ : Nat) => (none : Option Nat))
        (fun b => b) 2097152 = 2097152 := by
  exact ⟨by rfl, claim_C8_error_returns_original _ _ _ (by rfl)⟩

/-! ### Claim C3, counterexample -/

/-- C3, counterexample.  The claim's hypothesis — no run of 15 or more
digit characters interspersed only with single spaces/dashes — holds for
`"1a2a3a4a5a6a7a8a9a0a1a2a3a4a5a6"` (its sixteen digits are separated by
letters), yet `extractNIK` does not return `none`: the token scan
(Method 3) strips the letters from the single token and accepts the 16
remaining digits. -/
theorem claim_C3_counterexample :
    noLongRunSingle "1a2a3a4a5a6a7a8a9a0a1a2a3a4a5a6".data = true ∧
    extractNIK "1a2a3a4a5a6a7a8a9a0a1a2a3a4a5a6".data =
      some "1234567890123456".data := by
  exact ⟨by decide, by rfl⟩

/-! ### Claim C1: every returned identity number is 16 digits -/

theorem method1_is16 {t nik : List Char} (h : method1 t = some nik) :
    is16Digits nik = true := by
  unfold method1 at h
  cases hf : findNikLabel t with
  | none => rw [hf] at h; exact Option.noConfusion h
  | some raw =>
    rw [hf] at h
    dsimp only at h
    split at h
    · rename_i hg; cases h; exact hg
    · exact Option.noConfusion h

theorem method2Scan_is16 : ∀ {ms : List (List Char)} {nik : List Char},
    method2Scan ms = some nik → is16Digits nik = true := by
  intro ms
  induction ms with
  | nil => intro nik h; exact Option.noConfusion h
  | cons m ms ih =>
    intro nik h
    unfold method2Scan at h
    dsimp only at h
    split at h
    · rename_i hg; cases h; exact hg
    · split at h
      · split at h
        · rename_i hg; cases h; exact hg
        · exact ih h
      · exact ih h

theorem method2_is16 {t nik : List Char} (h : method2 t = some nik) :
    is16Digits nik = true := method2Scan_is16 h

theorem method3Scan_is16 : ∀ {ws : List (List Char)} {nik : List Char},
    method3Scan ws = some nik → is16Digits nik = true := by
  intro ws
  induction ws with
  | nil => intro nik h; exact Option.noConfusion h
  | cons w ws ih =>
    intro nik h
    unfold method3Scan at h
    dsimp only at h
    split at h
    · rename_i hg; cases h; exact hg
    · exact ih h

theorem method3_is16 {t nik : List Char} (h : method3 t = some nik) :
    is16Digits nik = true := method3Scan_is16 h

/-- C1.  Whenever `extractNIK` returns an identity number, that number is
a string of exactly 16 ASCII digits with no separators: every return path
of the function is guarded by the check `length === 16 && /^\d{16}$/`. -/
theorem claim_C1_sixteen_digits (text nik : List Char)
    (h : extractNIK text = some nik) :
    nik.length = 16 ∧ ∀ c ∈ nik, c.isDigit = true := by
  have h16 : is16Digits nik = true := by
    unfold extractNIK at h
    split at h
    · exact Option.noConfusion h
    · dsimp only at h
      cases h1 : method1 (normalizeText text) with
      | some v => rw [h1] at h; cases h; exact method1_is16 h1
      | none =>
        rw [h1] at h
        cases h2 : method2 (normalizeText text) with
        | some v => rw [h2] at h; cases h; exact method2_is16 h2
        | none => rw [h2] at h; exact method3_is16 h
  unfold is16Digits at h16
  rw [Bool.and_eq_true, decide_eq_true_eq, List.all_eq_true] at h16
  exact h16

/-- C1, instance. -/
theorem claim_C1_witness :
    extractNIK "NIK: 1234567890123456".data = some "1234567890123456".data ∧
    ("1234567890123456".data.length = 16 ∧
      ∀ c ∈ "1234567890123456".data, c.isDigit = true) := by
  exact ⟨by rfl, claim_C1_sixteen_digits "NIK: 1234567890123456".data
    "1234567890123456".data (by rfl)⟩

/-! ### Claim C6: the compression loop is bounded -/

theorem compressRun_len {β : Type} (step : β → Int → Nat → Option β)
    (size : β → Nat) :
    ∀ (r : Nat) (buf : β) (q : Int) (dim : Nat),
      (compressRun step size buf q dim r).1.length ≤ r := by
  intro r
  induction r with
  | zero => intro buf q dim; simp [compressRun]
  | succ r ih =>
    intro buf q dim
    by_cases hs : MAX_FILE_SIZE < size buf
    · cases hst : step buf q dim with
      | some b2 =>
        simp only [compressRun, hs, if_true, hst, List.length_cons]
        exact Nat.succ_le_succ (ih b2 _ _)
      | none => simp [compressRun, hs, hst]
    · simp [compressRun, hs]

theorem compressRun_entry {β : Type} (step : β → Int → Nat → Option β)
    (size : β → Nat) :
    ∀ (r : Nat) (buf : β) (q : Int) (dim : Nat) (i : Nat)
      (e : β × Int × Nat),
      (compressRun step size buf q dim r).1[i]? = some e →
      e.2.1 = q - 10 * i ∧ e.2.2 = dimIter i dim := by
  intro r
  induction r with
  | zero => intro buf q dim i e h; simp [compressRun] at h
  | succ r ih =>
    intro buf q dim i e h
    by_cases hs : MAX_FILE_SIZE < size buf
    · cases hst : step buf q dim with
      | some b2 =>
        rw [show (compressRun step size buf q dim (r + 1)).1
            = (buf, q, dim) ::
              (compressRun step size b2 (q - 10) (dim * 9 / 10) r).1 by
          simp [compressRun, hs, hst]] at h
        cases i with
        | zero =>
          rw [List.getElem?_cons_zero] at h
          cases h
          exact ⟨by simp, rfl⟩
        | succ i =>
          rw [List.getElem?_cons_succ] at h
          obtain ⟨hq, hd⟩ := ih b2 (q - 10) (dim * 9 / 10) i e h
          constructor
          · rw [hq]; push_cast; ring
          · rw [hd]; rfl
      | none =>
        rw [show (compressRun step size buf q dim (r + 1)).1
            = [(buf, q, dim)] by simp [compressRun, hs, hst]] at h
        cases i with
        | zero =>
          rw [List.getElem?_cons_zero] at h
          cases h
          exact ⟨by simp, rfl⟩
        | succ i => simp at h
    · rw [show (compressRun step size buf q dim (r + 1)).1 = []
        by simp [compressRun, hs]] at h
      simp at h

theorem dimIter_succ_right (i d : Nat) :
    dimIter (i + 1) d = dimIter i d * 9 / 10 := by
  induction i generalizing d with
  | zero => rfl
  | succ i ih =>
    show dimIter (i + 1) (d * 9 / 10) = dimIter (i + 1) d * 9 / 10
    rw [ih (d * 9 / 10)]
    rfl

/-- C6.  The compression loop executes at most 5 re-encode iterations
(the recorded trace of iteration-start states has length at most 5), and
between consecutive executed iterations the quality drops by exactly 10
and `maxDimension` is replaced by `floor(maxDimension * 0.9)`, a strictly
smaller value; hence the loop always terminates and `compressImage`
returns a buffer after at most 5 attempts, for every input. -/
theorem claim_C6_compress_bounded {β : Type}
    (step : β → Int → Nat → Option β) (size : β → Nat) (buf : β) :
    (compressRun step size buf 80 2000 5).1.length ≤ 5 ∧
    ∀ (i : Nat) (a b : β × Int × Nat),
      (compressRun step size buf 80 2000 5).1[i]? = some a →
      (compressRun step size buf 80 2000 5).1[i + 1]? = some b →
      b.2.1 = a.2.1 - 10 ∧ b.2.2 = a.2.2 * 9 / 10 ∧ b.2.2 < a.2.2 := by
  refine ⟨compressRun_len step size 5 buf 80 2000, ?_⟩
  intro i a b ha hb
  obtain ⟨haq, had⟩ := compressRun_entry step size 5 buf 80 2000 i a ha
  obtain ⟨hbq, hbd⟩ := compressRun_entry step size 5 buf 80 2000 (i + 1) b hb
  have hi : i + 1 < (compressRun step size buf 80 2000 5).1.length := by
    by_contra hge
    rw [List.getElem?_eq_none (Nat.le_of_not_lt hge)] at hb
    exact Option.noConfusion hb
  have hi4 : i ≤ 3 := by
    have := compressRun_len step size 5 buf 80 2000
    omega
  refine ⟨?_, ?_, ?_⟩
  · rw [haq, hbq]; push_cast; ring
  · rw [had, hbd, dimIter_succ_right]
  · rw [had, hbd]
    interval_cases i <;> decide

/-- C6, instance: with a step that never shrinks an over-limit buffer the
loop runs the full 5 iterations; the first two recorded iterations show
the quality and dimension updates. -/
theorem claim_C6_witness :
    (compressRun (fun (b : Nat) (_ : Int) (_ : Nat) => some b)
        (fun b => b) 2097152 80 2000 5).1[0]? = some (2097152, 80, 2000) ∧
    (compressRun (fun (b : Nat) (_ : Int) (_ : Nat) => some b)
        (fun b => b) 2097152 80 2000 5).1[1]? = some (2097152, 70, 1800) ∧
    ((2097152, 70, 1800) : Nat × Int × Nat).2.1 =
        ((2097152, 80, 2000) : Nat × Int × Nat).2.1 - 10 ∧
    ((2097152, 70, 1800) : Nat × Int × Nat).2.2 =
        ((2097152, 80, 2000) : Nat × Int × Nat).2.2 * 9 / 10 ∧
    ((2097152, 70, 1800) : Nat × Int × Nat).2.2 <
        ((2097152, 80, 2000) : Nat × Int × Nat).2.2 := by
  refine ⟨by rfl, by rfl, ?_⟩
  exact (claim_C6_compress_bounded (fun (b : Nat) (_ : Int) (_ : Nat) => some b)
    (fun b => b) 2097152).2 0 (2097152, 80, 2000) (2097152, 70, 1800)
    (by rfl) (by rfl)

/-! ### Claim C7: buffer sizes never grow -/

theorem compressRun_head {β : Type} (step : β → Int → Nat → Option β)
    (size : β → Nat) (r : Nat) (buf : β) (q : Int) (dim : Nat) :
    (compressRun step size buf q dim r).1 = [] ∨
    ∃ tl, (compressRun step size buf q dim r).1 = (buf, q, dim) :: tl := by
  cases r with
  | zero => left; simp [compressRun]
  | succ r =>
    by_cases hs : MAX_FILE_SIZE < size buf
    · cases hst : step buf q dim with
      | some b2 =>
        right
        exact ⟨(compressRun step size b2 (q - 10) (dim * 9 / 10) r).1,
          by simp [compressRun, hs, hst]⟩
      | none => right; exact ⟨[], by simp [compressRun, hs, hst]⟩
    · left; simp [compressRun, hs]

theorem compressRun_sizes {β : Type} (step : β → Int → Nat → Option β)
    (size : β → Nat)
    (hstep : ∀ b q d b2, step b q d = some b2 → size b2 ≤ size b) :
    ∀ (r : Nat) (buf : β) (q : Int) (dim : Nat),
      List.Chain' (fun a b => size b.1 ≤ size a.1)
        (compressRun step size buf q dim r).1 ∧
      ∀ b2, (compressRun step size buf q dim r).2 = some b2 →
        size b2 ≤ size buf := by
  intro r
  induction r with
  | zero =>
    intro buf q dim
    refine ⟨by simp [compressRun], ?_⟩
    intro b2 h
    simp only [compressRun] at h
    cases h
    exact le_refl _
  | succ r ih =>
    intro buf q dim
    by_cases hs : MAX_FILE_SIZE < size buf
    · cases hst : step buf q dim with
      | some b2 =>
        have h1 := (ih b2 (q - 10) (dim * 9 / 10)).1
        have h2 := (ih b2 (q - 10) (dim * 9 / 10)).2
        have htr : (compressRun step size buf q dim (r + 1)).1
            = (buf, q, dim) ::
              (compressRun step size b2 (q - 10) (dim * 9 / 10) r).1 := by
          simp [compressRun, hs, hst]
        have hres : (compressRun step size buf q dim (r + 1)).2
            = (compressRun step size b2 (q - 10) (dim * 9 / 10) r).2 := by
          simp [compressRun, hs, hst]
        constructor
        · rw [htr]
          rw [List.chain'_cons']
          refine ⟨?_, h1⟩
          intro y hy
          rcases compressRun_head step size r b2 (q - 10) (dim * 9 / 10) with
            hnil | ⟨tl, htl⟩
          · rw [hnil] at hy; exact absurd hy (by simp)
          · rw [htl] at hy
            simp only [List.head?_cons, Option.mem_def, Option.some.injEq] at hy
            subst hy
            exact hstep _ _ _ _ hst
        · intro b3 h3
          rw [hres] at h3
          exact le_trans (h2 b3 h3) (hstep _ _ _ _ hst)
      | none =>
        constructor
        · rw [show (compressRun step size buf q dim (r + 1)).1
            = [(buf, q, dim)] by simp [compressRun, hs, hst]]
          simp
        · intro b2 h
          rw [show (compressRun step size buf q dim (r + 1)).2 = none by
            simp [compressRun, hs, hst]] at h
          exact Option.noConfusion h
    · constructor
      · rw [show (compressRun step size buf q dim (r + 1)).1 = [] by
          simp [compressRun, hs]]
        simp
      · intro b2 h
        rw [show (compressRun step size buf q dim (r + 1)).2 = some buf by
          simp [compressRun, hs]] at h
        cases h
        exact le_refl _

/-- C7.  If each re-encode step never enlarges the buffer (the contract of
the external encoder), then across the iterations of the loop the sizes
of the working buffers are monotonically non-increasing, and the buffer
returned by `compressImage` is no larger than the input buffer (also in
the under-limit and failure branches, where the input is returned). -/
theorem claim_C7_size_monotone {β : Type}
    (step : β → Int → Nat → Option β) (size : β → Nat) (buf : β)
    (hstep : ∀ b q d b2, step b q d = some b2 → size b2 ≤ size b) :
    List.Chain' (fun a b => size b.1 ≤ size a.1)
      (compressRun step size buf 80 2000 5).1 ∧
    size (compressImage step size buf) ≤ size buf := by
  have h := compressRun_sizes step size hstep 5 buf 80 2000
  refine ⟨h.1, ?_⟩
  unfold compressImage
  cases hres : (compressRun step size buf 80 2000 5).2 with
  | some b2 => exact h.2 b2 hres
  | none => exact le_refl _

/-! ### Claim C3, amended: conditions under which no number is returned -/

theorem takeWhile_append_all {p : Char → Bool} :
    ∀ {a : List Char} (b : List Char), (∀ c ∈ a, p c = true) →
      (a ++ b).takeWhile p = a ++ b.takeWhile p := by
  intro a
  induction a with
  | nil => intro b _; rfl
  | cons c a ih =>
    intro b h
    have hc : p c = true := h c (by simp)
    simp only [List.cons_append, List.takeWhile_cons, hc, if_true]
    rw [ih b (fun x hx => h x (by simp [hx]))]

theorem looseDigits_digits_append {ds rest : List Char}
    (h : ∀ c ∈ ds, c.isDigit = true) :
    looseDigits (ds ++ rest) = ds.length + looseDigits rest := by
  unfold looseDigits
  rw [takeWhile_append_all rest (fun c hc => by simp [h c hc]),
    List.filter_append, List.filter_eq_self.mpr (fun c hc => h c hc),
    List.length_append]

theorem looseDigits_digit_cons {c : Char} {rest : List Char}
    (h : c.isDigit = true) :
    looseDigits (c :: rest) = 1 + looseDigits rest := by
  have h2 := @looseDigits_digits_append [c] rest
    (by intro x hx; simp at hx; rw [hx]; exact h)
  simpa using h2

theorem looseDigits_sep_cons {s : Char} {rest : List Char}
    (h : isSepChar s = true) :
    looseDigits (s :: rest) = looseDigits rest := by
  unfold looseDigits
  rw [List.takeWhile_cons,
    if_pos (show (s.isDigit || isSepChar s) = true by simp [h]),
    List.filter_cons, sep_not_digit h]
  simp

theorem takeDigits_spec : ∀ {n : Nat} {l ds rest : List Char},
    takeDigits n l = some (ds, rest) →
    ds.length = n ∧ (∀ c ∈ ds, c.isDigit = true) ∧ l = ds ++ rest := by
  intro n
  induction n with
  | zero =>
    intro l ds rest h
    unfold takeDigits at h
    cases h
    exact ⟨rfl, by simp, rfl⟩
  | succ n ih =>
    intro l ds rest h
    cases l with
    | nil => exact Option.noConfusion h
    | cons c l =>
      unfold takeDigits at h
      split at h
      · rename_i hdig
        cases htd : takeDigits n l with
        | none => rw [htd] at h; exact Option.noConfusion h
        | some pr =>
          obtain ⟨ds2, rest2⟩ := pr
          rw [htd] at h
          cases h
          obtain ⟨hlen, hall, happ⟩ := ih htd
          refine ⟨by simp [hlen], ?_, by simp [happ]⟩
          intro x hx
          rcases List.mem_cons.mp hx with h1 | h1
          · exact h1 ▸ hdig
          · exact hall x h1
      · exact Option.noConfusion h

theorem groupStep_none_digits {n : Nat} {l cap rest : List Char}
    (h : groupStep none n l = some (cap, rest)) :
    (cap.filter Char.isDigit).length ≤ looseDigits l := by
  unfold groupStep at h
  cases htd : takeDigits n l with
  | none => rw [htd] at h; exact Option.noConfusion h
  | some pr =>
    obtain ⟨ds, rest1⟩ := pr
    rw [htd] at h
    dsimp only at h
    cases h
    obtain ⟨hlen, hall, happ⟩ := takeDigits_spec htd
    rw [happ, looseDigits_digits_append hall,
      List.filter_eq_self.mpr (fun c hc => hall c hc)]
    omega

theorem groupStep_some_digits
    {recur : List Char → Option (List Char × List Char)}
    {n : Nat} {l cap rest : List Char}
    (hcont : ∀ l2 cap2 rest2, recur l2 = some (cap2, rest2) →
      (cap2.filter Char.isDigit).length ≤ looseDigits l2)
    (h : groupStep (some recur) n l = some (cap, rest)) :
    (cap.filter Char.isDigit).length ≤ looseDigits l := by
  unfold groupStep at h
  cases htd : takeDigits n l with
  | none => rw [htd] at h; exact Option.noConfusion h
  | some pr =>
    obtain ⟨ds, rest1⟩ := pr
    rw [htd] at h
    dsimp only at h
    obtain ⟨hlen, hall, happ⟩ := takeDigits_spec htd
    cases rest1 with
    | nil => exact Option.noConfusion h
    | cons s rest2 =>
      dsimp only at h
      rw [happ, looseDigits_digits_append hall]
      by_cases hsep : isSepChar s = true
      · rw [if_pos hsep] at h
        cases hr1 : recur rest2 with
        | some pr2 =>
          obtain ⟨cap2, r2⟩ := pr2
          rw [hr1] at h
          dsimp only at h
          cases h
          rw [List.filter_append, List.length_append,
            List.filter_eq_self.mpr (fun c hc => hall c hc),
            List.filter_cons, sep_not_digit hsep]
          simp only [Bool.false_eq_true, if_false]
          rw [looseDigits_sep_cons hsep]
          have hc2 := hcont rest2 cap2 _ hr1
          omega
        | none =>
          rw [hr1] at h
          dsimp only at h
          cases hr2 : recur (s :: rest2) with
          | some pr2 =>
            obtain ⟨cap2, r2⟩ := pr2
            rw [hr2] at h
            dsimp only at h
            cases h
            rw [List.filter_append, List.length_append,
              List.filter_eq_self.mpr (fun c hc => hall c hc)]
            have hc2 := hcont (s :: rest2) cap2 _ hr2
            omega
          | none => rw [hr2] at h; exact Option.noConfusion h
      · rw [if_neg hsep] at h
        cases hr2 : recur (s :: rest2) with
        | some pr2 =>
          obtain ⟨cap2, r2⟩ := pr2
          rw [hr2] at h
          dsimp only at h
          cases h
          rw [List.filter_append, List.length_append,
            List.filter_eq_self.mpr (fun c hc => hall c hc)]
          have hc2 := hcont (s :: rest2) cap2 _ hr2
          omega
        | none => rw [hr2] at h; exact Option.noConfusion h

theorem matchGroups_digits : ∀ (k : Nat) {l cap rest : List Char},
    matchGroups k l = some (cap, rest) →
    (cap.filter Char.isDigit).length ≤ looseDigits l := by
  intro k
  induction k with
  | zero =>
    intro l cap rest h
    unfold matchGroups at h
    cases h
    simp
  | succ k ih =>
    intro l cap rest h
    unfold matchGroups at h
    cases k with
    | zero =>
      dsimp only at h
      cases h3 : groupStep none 3 l with
      | some r3 =>
        rw [h3] at h
        injection h with h4
        subst h4
        exact groupStep_none_digits h3
      | none =>
        rw [h3] at h
        cases h2 : groupStep none 2 l with
        | some r2 =>
          rw [h2] at h
          injection h with h4
          subst h4
          exact groupStep_none_digits h2
        | none =>
          rw [h2] at h
          dsimp only at h
          exact groupStep_none_digits h
    | succ k2 =>
      dsimp only at h
      cases h3 : groupStep (some (matchGroups (k2 + 1))) 3 l with
      | some r3 =>
        rw [h3] at h
        injection h with h4
        subst h4
        exact groupStep_some_digits (fun l2 c2 r2 hrec => ih hrec) h3
      | none =>
        rw [h3] at h
        cases h2 : groupStep (some (matchGroups (k2 + 1))) 2 l with
        | some r2 =>
          rw [h2] at h
          injection h with h4
          subst h4
          exact groupStep_some_digits (fun l2 c2 r2 hrec => ih hrec) h2
        | none =>
          rw [h2] at h
          dsimp only at h
          exact groupStep_some_digits (fun l2 c2 r2 hrec => ih hrec) h

theorem findNikLabel_suffix : ∀ {l cap : List Char},
    findNikLabel l = some cap →
    ∃ t, t <:+ l ∧ matchNikLabelAt t = some cap := by
  intro l
  induction l with
  | nil => intro cap h; exact Option.noConfusion h
  | cons c l ih =>
    intro cap h
    unfold findNikLabel at h
    cases hm : matchNikLabelAt (c :: l) with
    | some cap2 =>
      rw [hm] at h
      cases h
      exact ⟨c :: l, List.suffix_refl _, hm⟩
    | none =>
      rw [hm] at h
      obtain ⟨t, hsuf, hmt⟩ := ih h
      exact ⟨t, hsuf.trans (List.suffix_cons c l), hmt⟩

theorem matchNikLabelAt_digits {t cap : List Char}
    (h : matchNikLabelAt t = some cap) :
    ∃ l2, l2 <:+ t ∧ (cap.filter Char.isDigit).length ≤ looseDigits l2 := by
  cases t with
  | nil => exact Option.noConfusion h
  | cons c1 t1 =>
    cases t1 with
    | nil => exact Option.noConfusion h
    | cons c2 t2 =>
      cases t2 with
      | nil => exact Option.noConfusion h
      | cons c3 rest =>
        unfold matchNikLabelAt at h
        dsimp only at h
        split at h
        · cases hg : matchGroups 8 (rest.dropWhile isLabelSep) with
          | none => rw [hg] at h; exact Option.noConfusion h
          | some pr =>
            obtain ⟨cap2, r2⟩ := pr
            rw [hg] at h
            dsimp only at h
            cases h
            refine ⟨rest.dropWhile isLabelSep, ?_, matchGroups_digits 8 hg⟩
            exact (List.dropWhile_suffix isLabelSep).trans
              ((List.suffix_cons c3 rest).trans
                ((List.suffix_cons c2 (c3 :: rest)).trans
                  (List.suffix_cons c1 (c2 :: c3 :: rest))))
        · exact Option.noConfusion h

theorem filter_length_le_of_imp : ∀ (l : List Char) (p q : Char → Bool),
    (∀ c ∈ l, p c = true → q c = true) →
    (l.filter p).length ≤ (l.filter q).length := by
  intro l
  induction l with
  | nil => intro p q h; simp
  | cons c l ih =>
    intro p q h
    have ihl := ih p q (fun x hx hpx => h x (by simp [hx]) hpx)
    by_cases hp : p c = true
    · have hq := h c (by simp) hp
      simp only [List.filter_cons, hp, hq, if_true, List.length_cons]
      exact Nat.succ_le_succ ihl
    · have hp2 : p c = false := by
        cases hpc : p c
        · rfl
        · exact absurd hpc hp
      simp only [List.filter_cons, hp2, Bool.false_eq_true, if_false]
      by_cases hq : q c = true
      · simp only [hq, if_true, List.length_cons]
        exact le_trans ihl (Nat.le_succ _)
      · have hq2 : q c = false := by
          cases hqc : q c
          · rfl
          · exact absurd hqc hq
        simp only [hq2, Bool.false_eq_true, if_false]
        exact ihl

theorem sixteen_le_digits {cap : List Char}
    (h : is16Digits (stripSeps cap) = true) :
    16 ≤ (cap.filter Char.isDigit).length := by
  unfold is16Digits stripSeps at h
  rw [Bool.and_eq_true, decide_eq_true_eq, List.all_eq_true] at h
  obtain ⟨hlen, hall⟩ := h
  have hmono := filter_length_le_of_imp cap (fun c => !isSepChar c)
    Char.isDigit ?himp
  · omega
  · intro c hc hpc
    exact hall c (List.mem_filter.mpr ⟨hc, hpc⟩)

theorem method1_none_of_noLongRun {clean : List Char}
    (h1 : noLongRun clean = true) : method1 clean = none := by
  unfold method1
  cases hf : findNikLabel clean with
  | none => rfl
  | some cap =>
    dsimp only
    have hle : (cap.filter Char.isDigit).length ≤ 14 := by
      obtain ⟨t, hsuf, hmt⟩ := findNikLabel_suffix hf
      obtain ⟨l2, hsuf2, hbound⟩ := matchNikLabelAt_digits hmt
      have hsuf3 : l2 <:+ clean := hsuf2.trans hsuf
      unfold noLongRun at h1
      rw [List.all_eq_true] at h1
      have h14 := h1 l2 ((List.mem_tails _ _).mpr hsuf3)
      rw [decide_eq_true_eq] at h14
      omega
    cases hg : is16Digits (stripSeps cap) with
    | false => simp [hg]
    | true =>
      exfalso
      have := sixteen_le_digits hg
      omega

theorem regionGo_digits : ∀ l : List Char, (regionGo l).2.1 ≤ looseDigits l := by
  intro l
  induction l with
  | nil => simp [regionGo, looseDigits]
  | cons c l ih =>
    unfold regionGo
    rcases hrg : regionGo l with ⟨cons, n, rest⟩
    rw [hrg] at ih
    by_cases hd : c.isDigit = true
    · simp only [hd, if_true, hrg]
      rw [looseDigits_digit_cons hd]
      dsimp only at ih ⊢
      omega
    · have hd2 : c.isDigit = false := by
        cases hdc : c.isDigit
        · rfl
        · exact absurd hdc hd
      simp only [hd2, Bool.false_eq_true, if_false, hrg]
      by_cases hs : isSepChar c = true
      · simp only [hs, if_true]
        by_cases hn : n = 0
        · simp [hn]
        · simp only [hn, if_false]
          rw [looseDigits_sep_cons hs]
          exact ih
      · have hs2 : isSepChar c = false := by
          cases hsc : isSepChar c
          · rfl
          · exact absurd hsc hs
        simp [hs2]

theorem match2At_digits {t m : List Char} (h : match2At t = some m) :
    16 ≤ looseDigits t := by
  unfold match2At at h
  cases t with
  | nil => exact Option.noConfusion h
  | cons c l =>
    dsimp only at h
    split at h
    · rename_i hd
      rcases hrg : regionGo l with ⟨cons, n, rest⟩
      rw [hrg] at h
      dsimp only at h
      split at h
      · rename_i h16
        have hb := regionGo_digits l
        rw [hrg] at hb
        dsimp only at hb
        rw [looseDigits_digit_cons hd]
        omega
      · exact Option.noConfusion h
    · exact Option.noConfusion h

theorem allMatchesF_nil : ∀ (fuel : Nat) (l : List Char),
    (∀ t, t <:+ l → match2At t = none) → allMatchesF fuel l = [] := by
  intro fuel
  induction fuel with
  | zero => intro l _; rfl
  | succ fuel ih =>
    intro l h
    cases l with
    | nil => rfl
    | cons c l =>
      unfold allMatchesF
      dsimp only
      rw [h (c :: l) (List.suffix_refl _)]
      exact ih l (fun t ht => h t (ht.trans (List.suffix_cons c l)))

theorem method2_none_of_noLongRun {clean : List Char}
    (h1 : noLongRun clean = true) : method2 clean = none := by
  have hmt : ∀ t, t <:+ clean → match2At t = none := by
    intro t ht
    cases hm : match2At t with
    | none => rfl
    | some m =>
      exfalso
      have h16 := match2At_digits hm
      unfold noLongRun at h1
      rw [List.all_eq_true] at h1
      have h14 := h1 t ((List.mem_tails _ _).mpr ht)
      rw [decide_eq_true_eq] at h14
      omega
  unfold method2 allMatches
  rw [allMatchesF_nil _ _ hmt]
  rfl

theorem method3Scan_none : ∀ {ws : List (List Char)},
    (∀ w ∈ ws, ((w.filter Char.isDigit).length != 16) = true) →
    method3Scan ws = none := by
  intro ws
  induction ws with
  | nil => intro _; rfl
  | cons w ws ih =>
    intro h
    unfold method3Scan
    have hw := h w (by simp)
    rw [bne_iff_ne] at hw
    have hg : is16Digits (w.filter Char.isDigit) = false := by
      simp [is16Digits, hw]
    dsimp only
    rw [hg]
    simp only [Bool.false_eq_true, if_false]
    exact ih (fun x hx => h x (by simp [hx]))

/-- C3, amended.  For every input text whose normalised form contains no
digit sequence of 15 or more digit characters interspersed with runs of
spaces/dashes, and no space/dash-delimited token with exactly 16 digit
characters among other characters, `extractNIK` returns `none`: no
strategy can produce a 16-digit candidate. -/
theorem claim_C3_no_candidate (text : List Char)
    (h1 : noLongRun (normalizeText text) = true)
    (h2 : noSixteenToken (normalizeText text) = true) :
    extractNIK text = none := by
  unfold extractNIK
  cases he : text.isEmpty with
  | true => simp
  | false =>
    dsimp only
    simp only [Bool.false_eq_true, if_false]
    rw [method1_none_of_noLongRun h1, method2_none_of_noLongRun h1]
    unfold method3
    apply method3Scan_none
    unfold noSixteenToken at h2
    rw [List.all_eq_true] at h2
    exact h2

/-- C3, amended, instance. -/
theorem claim_C3_witness :
    noLongRun (normalizeText "abc 123 def".data) = true ∧
    noSixteenToken (normalizeText "abc 123 def".data) = true ∧
    extractNIK "abc 123 def".data = none := by
  exact ⟨by decide, by decide,
    claim_C3_no_candidate "abc 123 def".data (by decide) (by decide)⟩

/-! ### Claim C5: a lone 17-digit run is truncated to its first 16 digits

The normalisation passes replace whitespace runs by single spaces and trim
the ends; the lemmas below show that they carry a distinguished
whitespace-free block through unchanged, while the surrounding characters
stay surrounding (so digit-freeness of the surroundings is preserved). -/

theorem collapseGo_cons_pos_true {p : Char → Bool} {c : Char} {l : List Char}
    (hc : p c = true) :
    collapseGo p true (c :: l) = collapseGo p true l := by
  conv_lhs => unfold collapseGo
  rw [if_pos hc, if_pos rfl]

theorem collapseGo_cons_pos_false {p : Char → Bool} {c : Char} {l : List Char}
    (hc : p c = true) :
    collapseGo p false (c :: l) = ' ' :: collapseGo p true l := by
  conv_lhs => unfold collapseGo
  rw [if_pos hc, if_neg (by simp)]

theorem collapseGo_cons_neg {p : Char → Bool} {s : Bool} {c : Char}
    {l : List Char} (hc : p c = false) :
    collapseGo p s (c :: l) = c :: collapseGo p false l := by
  conv_lhs => unfold collapseGo
  rw [if_neg (by simp [hc])]

theorem collapseGo_through {p : Char → Bool} {hd : Char} (hhd : p hd = false) :
    ∀ (pre : List Char) (s : Bool) (tl : List Char),
      ∃ A, collapseGo p s (pre ++ hd :: tl) = A ++ hd :: collapseGo p false tl ∧
        ∀ c ∈ A, c = ' ' ∨ c ∈ pre := by
  intro pre
  induction pre with
  | nil =>
    intro s tl
    refine ⟨[], ?_, by simp⟩
    rw [List.nil_append, collapseGo_cons_neg hhd, List.nil_append]
  | cons c pre ih =>
    intro s tl
    by_cases hc : p c = true
    · obtain ⟨A, hA, hmem⟩ := ih true tl
      cases s with
      | true =>
        refine ⟨A, ?_, fun x hx => (hmem x hx).imp id (fun h2 => by simp [h2])⟩
        rw [List.cons_append, collapseGo_cons_pos_true hc, hA]
      | false =>
        refine ⟨' ' :: A, ?_, ?_⟩
        · rw [List.cons_append, collapseGo_cons_pos_false hc, hA,
            List.cons_append]
        · intro x hx
          rcases List.mem_cons.mp hx with h2 | h2
          · left; exact h2
          · exact (hmem x h2).imp id (fun h3 => by simp [h3])
    · have hc2 : p c = false := by
        cases hpc : p c
        · rfl
        · exact absurd hpc hc
      obtain ⟨A, hA, hmem⟩ := ih false tl
      refine ⟨c :: A, ?_, ?_⟩
      · rw [List.cons_append, collapseGo_cons_neg hc2, hA, List.cons_append]
      · intro x hx
        rcases List.mem_cons.mp hx with h2 | h2
        · right; simp [h2]
        · exact (hmem x h2).imp id (fun h3 => by simp [h3])

theorem collapseGo_clean_block {p : Char → Bool} :
    ∀ (e rest : List Char), (∀ c ∈ e, p c = false) →
      collapseGo p false (e ++ rest) = e ++ collapseGo p false rest := by
  intro e
  induction e with
  | nil => intro rest _; rfl
  | cons c e ih =>
    intro rest h
    have hc : p c = false := h c (by simp)
    rw [List.cons_append, collapseGo_cons_neg hc,
      ih rest (fun x hx => h x (by simp [hx])), List.cons_append]

theorem collapseGo_mem {p : Char → Bool} :
    ∀ (l : List Char) (s : Bool) (c : Char),
      c ∈ collapseGo p s l → c = ' ' ∨ c ∈ l := by
  intro l
  induction l with
  | nil => intro s c h; simp [collapseGo] at h
  | cons a l ih =>
    intro s c h
    by_cases ha : p a = true
    · cases s with
      | true =>
        rw [collapseGo_cons_pos_true ha] at h
        exact (ih true c h).imp id (fun h2 => by simp [h2])
      | false =>
        rw [collapseGo_cons_pos_false ha] at h
        rcases List.mem_cons.mp h with h2 | h2
        · left; exact h2
        · exact (ih true c h2).imp id (fun h3 => by simp [h3])
    · have ha2 : p a = false := by
        cases hpa : p a
        · rfl
        · exact absurd hpa ha
      rw [collapseGo_cons_neg ha2] at h
      rcases List.mem_cons.mp h with h2 | h2
      · right; simp [h2]
      · exact (ih false c h2).imp id (fun h3 => by simp [h3])

theorem dropWhile_through {q : Char → Bool} {hd : Char} (hhd : q hd = false) :
    ∀ (A tl : List Char),
      (A ++ hd :: tl).dropWhile q = A.dropWhile q ++ hd :: tl := by
  intro A
  induction A with
  | nil =>
    intro tl
    simp only [List.nil_append, List.dropWhile_cons, hhd, Bool.false_eq_true,
      if_false, List.dropWhile_nil]
  | cons c A ih =>
    intro tl
    by_cases hc : q c = true
    · simp only [List.cons_append, List.dropWhile_cons, hc, if_true]
      exact ih tl
    · have hc2 : q c = false := by
        cases hqc : q c
        · rfl
        · exact absurd hqc hc
      simp only [List.cons_append, List.dropWhile_cons, hc2,
        Bool.false_eq_true, if_false]

theorem newline_is_space {c : Char} (h : isNewlineChar c = true) :
    isJsSpace c = true := by
  simp only [isNewlineChar, Bool.or_eq_true, decide_eq_true_eq] at h
  rcases h with h | h <;> subst h <;> decide

/-- Trimming carries a nonempty whitespace-free block through unchanged. -/
theorem jsTrim_through {d : List Char} (hd : d ≠ [])
    (hnd : ∀ c ∈ d, isJsSpace c = false) (A B : List Char) :
    jsTrim (A ++ d ++ B) = A.dropWhile isJsSpace ++ d ++
      (B.reverse.dropWhile isJsSpace).reverse := by
  obtain ⟨hd0, dtl, rfl⟩ : ∃ h t, d = h :: t := by
    cases d with
    | nil => exact absurd rfl hd
    | cons h t => exact ⟨h, t, rfl⟩
  obtain ⟨dinit, dlast, hdsplit⟩ :
      ∃ L b, (hd0 :: dtl : List Char) = L ++ [b] := by
    rcases List.eq_nil_or_concat (hd0 :: dtl) with h | ⟨L, b, hLb⟩
    · exact absurd h (by simp)
    · exact ⟨L, b, by rw [hLb, List.concat_eq_append]⟩
  have hhd0 : isJsSpace hd0 = false := hnd hd0 (by simp)
  have hdlast : isJsSpace dlast = false := hnd dlast (by rw [hdsplit]; simp)
  have h1 : ((A ++ (hd0 :: dtl) ++ B) : List Char).dropWhile isJsSpace
      = A.dropWhile isJsSpace ++ (hd0 :: dtl) ++ B := by
    rw [List.append_assoc, List.cons_append,
      dropWhile_through hhd0 A (dtl ++ B), ← List.cons_append,
      ← List.append_assoc]
  have h2 : ((A.dropWhile isJsSpace ++ (hd0 :: dtl) ++ B) : List Char).reverse
      = B.reverse ++
        (dlast :: (dinit.reverse ++ (A.dropWhile isJsSpace).reverse)) := by
    rw [hdsplit]
    simp [List.reverse_append, List.append_assoc]
  have h3 : ((B.reverse ++
        (dlast :: (dinit.reverse ++ (A.dropWhile isJsSpace).reverse)))
        : List Char).dropWhile isJsSpace
      = B.reverse.dropWhile isJsSpace ++
        (dlast :: (dinit.reverse ++ (A.dropWhile isJsSpace).reverse)) :=
    dropWhile_through hdlast B.reverse _
  have h4 : ((B.reverse.dropWhile isJsSpace ++
        (dlast :: (dinit.reverse ++ (A.dropWhile isJsSpace).reverse)))
        : List Char).reverse
      = A.dropWhile isJsSpace ++ (hd0 :: dtl) ++
        (B.reverse.dropWhile isJsSpace).reverse := by
    rw [hdsplit]
    simp [List.reverse_append, List.append_assoc]
  show (((A ++ (hd0 :: dtl) ++ B).dropWhile
      isJsSpace).reverse.dropWhile isJsSpace).reverse = _
  rw [h1, h2, h3, h4]

/-- The two collapse passes and the trim carry a nonempty whitespace-free
block `d` through unchanged; everything around it is spaces or characters
of the original surroundings. -/
theorem normalize_structure {pre d post : List Char}
    (hd : d ≠ []) (hnd : ∀ c ∈ d, isJsSpace c = false) :
    ∃ A B, normalizeText (pre ++ d ++ post) = A ++ d ++ B ∧
      (∀ c ∈ A, c = ' ' ∨ c ∈ pre) ∧ (∀ c ∈ B, c = ' ' ∨ c ∈ post) := by
  obtain ⟨hd0, dtl, rfl⟩ : ∃ h t, d = h :: t := by
    cases d with
    | nil => exact absurd rfl hd
    | cons h t => exact ⟨h, t, rfl⟩
  have hnd1 : ∀ c ∈ hd0 :: dtl, isNewlineChar c = false := by
    intro c hc
    cases hn : isNewlineChar c
    · rfl
    · have h2 := hnd c hc
      rw [newline_is_space hn] at h2
      exact Bool.noConfusion h2
  obtain ⟨A1, hA1, hA1mem⟩ :=
    @collapseGo_through isNewlineChar hd0
      (hnd1 hd0 (by simp)) pre false (dtl ++ post)
  have hstep1 : collapseRuns isNewlineChar ((pre ++ (hd0 :: dtl)) ++ post)
      = A1 ++ (hd0 :: dtl) ++ collapseRuns isNewlineChar post := by
    show collapseGo isNewlineChar false ((pre ++ (hd0 :: dtl)) ++ post)
        = A1 ++ (hd0 :: dtl) ++ collapseGo isNewlineChar false post
    rw [List.append_assoc, List.cons_append, hA1,
      collapseGo_clean_block dtl post
        (fun c hc => hnd1 c (by simp [hc]))]
    simp [List.append_assoc]
  obtain ⟨A2, hA2, hA2mem⟩ :=
    @collapseGo_through isJsSpace hd0
      (hnd hd0 (by simp)) A1 false
      (dtl ++ collapseRuns isNewlineChar post)
  have hstep2 : collapseRuns isJsSpace
      (A1 ++ (hd0 :: dtl) ++ collapseRuns isNewlineChar post)
      = A2 ++ (hd0 :: dtl) ++
        collapseRuns isJsSpace (collapseRuns isNewlineChar post) := by
    show collapseGo isJsSpace false
        (A1 ++ (hd0 :: dtl) ++ collapseRuns isNewlineChar post)
        = A2 ++ (hd0 :: dtl) ++
          collapseGo isJsSpace false (collapseRuns isNewlineChar post)
    rw [List.append_assoc, List.cons_append, hA2,
      collapseGo_clean_block dtl _
        (fun c hc => hnd c (by simp [hc]))]
    simp [List.append_assoc]
  set B2 := collapseRuns isJsSpace (collapseRuns isNewlineChar post) with hB2
  have htrim := @jsTrim_through (hd0 :: dtl) (by simp) hnd A2 B2
  refine ⟨A2.dropWhile isJsSpace, (B2.reverse.dropWhile isJsSpace).reverse,
    ?_, ?_, ?_⟩
  · unfold normalizeText
    rw [hstep1, hstep2, htrim]
  · intro c hc
    have hc2 : c ∈ A2 := (List.dropWhile_sublist isJsSpace).mem hc
    rcases hA2mem c hc2 with h2 | h2
    · left; exact h2
    · rcases hA1mem c h2 with h3 | h3
      · left; exact h3
      · right; exact h3
  · intro c hc
    have hc2 : c ∈ B2.reverse :=
      (List.dropWhile_sublist isJsSpace).mem (List.mem_reverse.mp hc)
    have hc3 : c ∈ B2 := List.mem_reverse.mp (by simpa using hc2)
    rw [hB2] at hc3
    rcases collapseGo_mem _ _ _ hc3 with h2 | h2
    · left; exact h2
    · rcases collapseGo_mem _ _ _ h2 with h3 | h3
      · left; exact h3
      · right; exact h3

theorem matchNikLabelAt_nikCi {t cap : List Char}
    (h : matchNikLabelAt t = some cap) : nikCiAt t = true := by
  cases t with
  | nil => exact Option.noConfusion h
  | cons c1 t1 =>
    cases t1 with
    | nil => exact Option.noConfusion h
    | cons c2 t2 =>
      cases t2 with
      | nil => exact Option.noConfusion h
      | cons c3 rest =>
        unfold matchNikLabelAt at h
        dsimp only at h
        split at h
        · rename_i hck
          unfold nikCiAt
          exact hck
        · exact Option.noConfusion h

theorem method1_none_of_noNik {clean : List Char}
    (h : hasNikCi clean = false) : method1 clean = none := by
  unfold method1
  cases hf : findNikLabel clean with
  | none => rfl
  | some cap =>
    exfalso
    obtain ⟨t, hsuf, hmt⟩ := findNikLabel_suffix hf
    have hnik := matchNikLabelAt_nikCi hmt
    unfold hasNikCi at h
    rw [List.any_eq_false] at h
    have h2 := h t ((List.mem_tails _ _).mpr hsuf)
    rw [hnik] at h2
    exact h2 rfl

theorem match2At_cons_nondigit {c : Char} {l : List Char}
    (h : c.isDigit = false) : match2At (c :: l) = none := by
  unfold match2At
  dsimp only
  rw [if_neg (by simp [h])]

theorem allMatchesF_skip : ∀ (A rest : List Char) (fuel : Nat),
    (∀ c ∈ A, c.isDigit = false) →
    allMatchesF (A.length + fuel) (A ++ rest) = allMatchesF fuel rest := by
  intro A
  induction A with
  | nil => intro rest fuel _; simp
  | cons c A ih =>
    intro rest fuel h
    have hfl : ((c :: A : List Char)).length + fuel = (A.length + fuel) + 1 := by
      simp only [List.length_cons]
      omega
    rw [hfl, List.cons_append]
    conv_lhs => unfold allMatchesF
    dsimp only
    rw [match2At_cons_nondigit (h c (by simp))]
    exact ih rest fuel (fun x hx => h x (by simp [hx]))

theorem allMatchesF_nodigit (fuel : Nat) (B : List Char)
    (h : ∀ c ∈ B, c.isDigit = false) : allMatchesF fuel B = [] := by
  apply allMatchesF_nil
  intro t ht
  cases t with
  | nil => rfl
  | cons c l =>
    exact match2At_cons_nondigit (h c (ht.subset (by simp)))

theorem regionGo_digit_block : ∀ (e rest : List Char),
    (∀ c ∈ e, c.isDigit = true) →
    regionGo (e ++ rest) =
      (e ++ (regionGo rest).1, e.length + (regionGo rest).2.1,
        (regionGo rest).2.2) := by
  intro e
  induction e with
  | nil => intro rest _; simp
  | cons c e ih =>
    intro rest h
    have hc : c.isDigit = true := h c (by simp)
    rw [List.cons_append]
    conv_lhs => unfold regionGo
    rw [if_pos hc, ih rest (fun x hx => h x (by simp [hx]))]
    simp only [List.cons_append, List.length_cons, Prod.mk.injEq, true_and,
      and_true]
    omega

theorem regionGo_nodigit : ∀ (B : List Char),
    (∀ c ∈ B, c.isDigit = false) → regionGo B = ([], 0, B) := by
  intro B
  induction B with
  | nil => intro _; rfl
  | cons c B ih =>
    intro h
    have hc : c.isDigit = false := h c (by simp)
    unfold regionGo
    dsimp only
    rw [if_neg (by simp [hc])]
    by_cases hs : isSepChar c = true
    · rw [if_pos hs, ih (fun x hx => h x (by simp [hx]))]
      simp
    · rw [if_neg hs]

theorem method2_seventeen {A d B : List Char}
    (hlen : d.length = 17) (hdig : ∀ c ∈ d, c.isDigit = true)
    (hA : ∀ c ∈ A, c.isDigit = false) (hB : ∀ c ∈ B, c.isDigit = false) :
    method2 (A ++ d ++ B) = some (d.take 16) := by
  obtain ⟨hd0, dtl, rfl⟩ : ∃ h t, d = h :: t := by
    cases d with
    | nil => simp at hlen
    | cons h t => exact ⟨h, t, rfl⟩
  have hdtl : dtl.length = 16 := by simpa using hlen
  unfold method2 allMatches
  have hlen2 : ((A ++ (hd0 :: dtl) ++ B) : List Char).length
      = A.length + ((16 + B.length) + 1) := by
    simp only [List.length_append, List.length_cons, hdtl]
    omega
  rw [hlen2, List.append_assoc, allMatchesF_skip A _ _ hA,
    List.cons_append]
  have hm2 : match2At (hd0 :: (dtl ++ B)) = some (hd0 :: dtl) := by
    conv_lhs => unfold match2At
    dsimp only
    rw [if_pos (hdig hd0 (by simp)),
      regionGo_digit_block dtl B (fun x hx => hdig x (by simp [hx])),
      regionGo_nodigit B hB]
    dsimp only
    rw [if_pos (by omega : 16 ≤ dtl.length + 0 + 1)]
    simp
  conv_lhs => unfold allMatchesF
  dsimp only
  rw [hm2]
  dsimp only
  rw [show List.drop ((hd0 :: dtl : List Char)).length (hd0 :: (dtl ++ B)) = B by
    rw [← List.cons_append]
    exact List.drop_left _ _]
  rw [allMatchesF_nodigit _ B hB]
  conv_lhs => unfold method2Scan
  dsimp only
  rw [List.filter_eq_self.mpr (fun c hc => hdig c hc)]
  have h16f : is16Digits (hd0 :: dtl) = false := by
    unfold is16Digits
    have : ((hd0 :: dtl : List Char)).length = 17 := by simp [hdtl]
    rw [this]
    simp
  rw [h16f]
  simp only [Bool.false_eq_true, if_false]
  rw [if_pos (show 16 < ((hd0 :: dtl : List Char)).length by simp [hdtl])]
  rw [if_pos (show is16Digits ((hd0 :: dtl : List Char).take 16) = true by
    rw [is16Digits, Bool.and_eq_true, decide_eq_true_eq, List.all_eq_true]
    constructor
    · rw [List.length_take]
      simp [hdtl]
    · intro c hc
      exact hdig c (List.mem_of_mem_take hc))]

/-- C5.  For an input text whose only digit content is a single contiguous
run of exactly 17 digits, with no case-insensitive occurrence of `nik` in
the normalised text, `extractNIK` returns the first 16 digits of that run:
the labelled strategy cannot fire, and the global digit-run scan's
over-length fallback truncates the 17-digit candidate to 16. -/
theorem claim_C5_seventeen_run (pre d post : List Char)
    (hlen : d.length = 17) (hdig : ∀ c ∈ d, c.isDigit = true)
    (hpre : ∀ c ∈ pre, c.isDigit = false)
    (hpost : ∀ c ∈ post, c.isDigit = false)
    (hnik : hasNikCi (normalizeText (pre ++ d ++ post)) = false) :
    extractNIK (pre ++ d ++ post) = some (d.take 16) := by
  obtain ⟨A, B, hAB, hAmem, hBmem⟩ :=
    @normalize_structure pre d post
      (show d ≠ [] by intro h2; rw [h2] at hlen; simp at hlen)
      (fun c hc => digit_not_space (hdig c hc))
  have hAdig : ∀ c ∈ A, c.isDigit = false := by
    intro c hc
    rcases hAmem c hc with h2 | h2
    · rw [h2]; decide
    · exact hpre c h2
  have hBdig : ∀ c ∈ B, c.isDigit = false := by
    intro c hc
    rcases hBmem c hc with h2 | h2
    · rw [h2]; decide
    · exact hpost c h2
  have hne : (pre ++ d ++ post).isEmpty = false := by
    cases hie : (pre ++ d ++ post).isEmpty
    · rfl
    · exfalso
      have h2 := List.isEmpty_iff.mp hie
      rcases List.append_eq_nil.mp h2 with ⟨h3, _⟩
      rcases List.append_eq_nil.mp h3 with ⟨_, h4⟩
      rw [h4] at hlen
      simp at hlen
  have hm1 : method1 (normalizeText (pre ++ d ++ post)) = none :=
    method1_none_of_noNik hnik
  have hm2 : method2 (normalizeText (pre ++ d ++ post)) = some (d.take 16) := by
    rw [hAB]
    exact method2_seventeen hlen hdig hAdig hBdig
  unfold extractNIK
  rw [hne]
  simp only [Bool.false_eq_true, if_false]
  rw [hm1]
  dsimp only
  rw [hm2]

/-- C5, instance. -/
theorem claim_C5_witness :
    hasNikCi (normalizeText ("Nomor ".data ++ "12345678901234567".data ++
      " warga".data)) = false ∧
    extractNIK ("Nomor ".data ++ "12345678901234567".data ++ " warga".data) =
      some ("12345678901234567".data.take 16) := by
  refine ⟨by decide, ?_⟩
  exact claim_C5_seventeen_run "Nomor ".data "12345678901234567".data
    " warga".data (by decide) (by decide) (by decide) (by decide) (by decide)

/-- C7, instance: a halving encoder on an over-limit buffer. -/
theorem claim_C7_witness :
    List.Chain' (fun a b => (fun x => x) b.1 ≤ (fun x => x) a.1)
      (compressRun (fun (b : Nat) (_ : Int) (_ : Nat) => some (b / 2))
        (fun x => x) 2097152 80 2000 5).1 ∧
    (fun x => x) (compressImage
        (fun (b : Nat) (_ : Int) (_ : Nat) => some (b / 2))
        (fun x => x) 2097152) ≤ (fun x => x) 2097152 := by
  exact claim_C7_size_monotone
    (fun (b : Nat) (_ : Int) (_ : Nat) => some (b / 2)) (fun x => x) 2097152
    (fun b q d b2 h => by
      injection h with h2
      exact h2 ▸ Nat.div_le_self b 2)

end OcrSpaceKtp
